import Mathlib

/-!
Shallow embedding of `contrib/ivshmem-server/ivshmem-server.c`.

The server is single-threaded; every operation is a pure function from the
server state (plus an environment recording the results of the system calls
it performs: `accept4`, `eventfd`, `sendmsg`, `ftruncate`) to the new state
together with a list of observable events (messages sent, file descriptors
closed, peer memory freed, peer inserted into the registry).

C `long` values (peer ids, message payloads, file descriptors) are modelled
as `Int`; incrementing `cur_id` past the signed-64-bit range is undefined
behaviour in the C source, so id arithmetic is modelled unbounded.  The
`unsigned` arithmetic of `ivshmem_server_ftruncate` overflows deliberately
(bit smearing), so there it is modelled exactly, as `Nat` modulo `2 ^ 32`.
-/

/-- One wire message as assembled by `ivshmem_server_send_one_msg`:
destination socket, the `long` payload, and the optional file descriptor
attached as a `SCM_RIGHTS` control message (attached iff the `fd` argument
is nonnegative). -/
structure Msg where
  dest : Int
  payload : Int
  fd : Option Int
deriving DecidableEq

/-- Observable events of one server operation, in program order. -/
inductive Ev where
  | send (m : Msg)
  | closeFd (fd : Int)
  | insertPeer (id : Int)
  | freeMem
deriving DecidableEq

/-- `IvshmemServerPeer`: peer id, accepted socket, and the eventfd vectors
(`vectors_count` mirrors the C field; it equals `vectors.length` whenever the
peer was fully constructed). -/
structure Peer where
  id : Int
  sockFd : Int
  vectorsCount : Nat
  vectors : List Int
deriving DecidableEq

/-- `IvshmemServer`: configuration plus the mutable registry state. -/
structure Server where
  unixSockPath : String
  shmPath : String
  shmSize : Nat
  nVectors : Nat
  verbose : Bool
  shmFd : Int
  sockFd : Int
  curId : Int
  peerList : List Peer
deriving DecidableEq

/-- Modelled from the spec: the fixed protocol-version constant sent as the
first handshake message.  It is defined in `ivshmem-server.h`, which is not
part of the sources; the spec only requires it to be a fixed constant. -/
def IVSHMEM_PROTOCOL_VERSION : Int := 0

/-- `IVSHMEM_SERVER_MAX_HUGEPAGE_SIZE` = 1 GiB. -/
def IVSHMEM_SERVER_MAX_HUGEPAGE_SIZE : Nat := 1024 * 1024 * 1024

/-- The message assembled by `ivshmem_server_send_one_msg`: the control-message
file descriptor is attached iff `fd >= 0`. -/
def mkMsg (sockFd peerId fd : Int) : Msg :=
  { dest := sockFd, payload := peerId, fd := if 0 ≤ fd then some fd else none }

/-- `ivshmem_server_send_one_msg(sock_fd, peer_id, fd)`.  `sendmsgRet` is the
return value of the underlying `sendmsg` call (number of bytes written, or a
negative error).  The C code returns `-1` iff `ret <= 0`, else `0`. -/
def ivshmem_server_send_one_msg (sendmsgRet : Int) (sockFd peerId fd : Int) :
    Int × Msg :=
  (if sendmsgRet ≤ 0 then -1 else 0, mkMsg sockFd peerId fd)

/-- Number of bytes of the fixed-width payload (`sizeof(long)` on the target,
where `long` is 64-bit). -/
def payloadSize : Int := 8

/-- `ivshmem_server_search_peer`: linear scan of the registry for a peer id. -/
def ivshmem_server_search_peer (peers : List Peer) (peerId : Int) : Option Peer :=
  peers.find? fun p => p.id == peerId

/-- The body of the id-probing loop of `ivshmem_server_handle_new_conn`:
`while (search_peer(server, cur_id) != NULL) cur_id++;`.  `fuel` bounds the
number of iterations. -/
def probeFrom (peers : List Peer) : Int → Nat → Int
  | c, 0 => c
  | c, fuel + 1 =>
    if (ivshmem_server_search_peer peers c).isSome then probeFrom peers (c + 1) fuel
    else c

/-- The id-probing loop.  The loop runs at most `k + 1` times where `k` is the
number of registered ids that are `≥ cur_id` (each iteration that keeps looping
consumes a distinct such id), so that fuel is exact. -/
def probe_cur_id (peers : List Peer) (c : Int) : Int :=
  probeFrom peers c (((peers.map Peer.id).filter fun x => decide (c ≤ x)).length + 1)

/-- The eventfd-allocation loop: `res i` is the result of the `i`-th `eventfd`
call; a negative result aborts the loop.  `.error l` returns the vectors
allocated before the failure (closed by the `fail:` path), `.ok l` all `n`. -/
def allocVectorsGo (res : Nat → Int) : Nat → Nat → List Int →
    Except (List Int) (List Int)
  | _, 0, acc => .ok acc
  | i, k + 1, acc =>
    if res i < 0 then .error acc
    else allocVectorsGo res (i + 1) k (acc ++ [res i])

/-- Vector allocation for a new peer (`n` = `server->n_vectors`). -/
def allocVectors (res : Nat → Int) (n : Nat) : Except (List Int) (List Int) :=
  allocVectorsGo res 0 n []

/-- The vectors that were successfully allocated, whether or not the loop
completed. -/
def allocatedVectors (res : Nat → Int) (n : Nat) : List Int :=
  match allocVectors res n with
  | .error l => l
  | .ok l => l

/-- Environment of one `ivshmem_server_handle_new_conn` call: the `accept4`
result, the results of the successive `eventfd` calls, and the results of the
successive `sendmsg` calls on the new peer's socket (only the first three are
ever consulted: the loop sends ignore their return values). -/
structure ConnEnv where
  newfd : Int
  eventfdRes : Nat → Int
  sendmsgRes : Nat → Int

/-- Result of `ivshmem_server_handle_new_conn`. -/
structure ConnResult where
  server : Server
  ret : Int
  events : List Ev
deriving DecidableEq

/-- `ivshmem_server_send_initial_info`: the three sequenced sends to the new
peer (protocol version, peer id, shm fd), each aborting on failure. -/
def ivshmem_server_send_initial_info (sendRes : Nat → Int) (shmFd : Int)
    (peer : Peer) : Int × List Msg :=
  let (r1, m1) :=
    ivshmem_server_send_one_msg (sendRes 0) peer.sockFd IVSHMEM_PROTOCOL_VERSION (-1)
  if r1 < 0 then (-1, [m1])
  else
    let (r2, m2) := ivshmem_server_send_one_msg (sendRes 1) peer.sockFd peer.id (-1)
    if r2 < 0 then (-1, [m1, m2])
    else
      let (r3, m3) := ivshmem_server_send_one_msg (sendRes 2) peer.sockFd (-1) shmFd
      if r3 < 0 then (-1, [m1, m2, m3])
      else (0, [m1, m2, m3])

/-- Loop "advertise the new peer to others": for each registered peer, one
message per vector of the new peer (payload = new id, fd = new peer's
vector).  Return values of these sends are ignored by the C code. -/
def advertiseNewToOthers (peers : List Peer) (p : Peer) : List Msg :=
  peers.flatMap fun other =>
    (List.range p.vectorsCount).map fun i =>
      mkMsg other.sockFd p.id (p.vectors.getD i (-1))

/-- Loop "advertise the other peers to the new one": note that the C code
indexes `other_peer->vectors[i]` with `i` bounded by the NEW peer's
`vectors_count`; `List.getD` returns the junk default on an out-of-bounds
access. -/
def advertiseOthersToNew (peers : List Peer) (p : Peer) : List Msg :=
  peers.flatMap fun other =>
    (List.range p.vectorsCount).map fun i =>
      mkMsg p.sockFd other.id (other.vectors.getD i (-1))

/-- Loop "advertise the new peer to itself". -/
def advertiseNewToItself (p : Peer) : List Msg :=
  (List.range p.vectorsCount).map fun i =>
    mkMsg p.sockFd p.id (p.vectors.getD i (-1))

/-- `ivshmem_server_handle_new_conn`: accept, probe a free id (advancing
`cur_id` past it), allocate the vectors, send the initial info, run the three
advertisement loops, and only then insert the peer.  Any failure unwinds:
the vectors allocated so far are closed in reverse order (`while (i--)`),
the new socket is closed, and the peer structure is freed. -/
def ivshmem_server_handle_new_conn (s : Server) (env : ConnEnv) : ConnResult :=
  if env.newfd < 0 then ⟨s, -1, []⟩
  else
    let pid := probe_cur_id s.peerList s.curId
    let s1 : Server := { s with curId := pid + 1 }
    match allocVectors env.eventfdRes s.nVectors with
    | .error vecsSoFar =>
      ⟨s1, -1, vecsSoFar.reverse.map Ev.closeFd ++ [Ev.closeFd env.newfd, Ev.freeMem]⟩
    | .ok vecs =>
      let peer : Peer := ⟨pid, env.newfd, s.nVectors, vecs⟩
      let (r, msgs) := ivshmem_server_send_initial_info env.sendmsgRes s1.shmFd peer
      if r < 0 then
        ⟨s1, -1, msgs.map Ev.send ++ vecs.reverse.map Ev.closeFd ++
          [Ev.closeFd env.newfd, Ev.freeMem]⟩
      else
        let adv := advertiseNewToOthers s1.peerList peer ++
          advertiseOthersToNew s1.peerList peer ++ advertiseNewToItself peer
        ⟨{ s1 with peerList := s1.peerList ++ [peer] }, 0,
          (msgs ++ adv).map Ev.send ++ [Ev.insertPeer pid]⟩

/-- `ivshmem_server_free_peer`: close the socket, remove the peer from the
registry, broadcast the departing id (no fd) to every remaining peer, close
the vectors, free the peer. -/
def ivshmem_server_free_peer (s : Server) (p : Peer) : Server × List Ev :=
  let remaining := s.peerList.erase p
  let msgs := remaining.map fun other => mkMsg other.sockFd p.id (-1)
  let vecCloseFds := (List.range p.vectorsCount).map fun i => p.vectors.getD i (-1)
  ({ s with peerList := remaining },
   Ev.closeFd p.sockFd :: (msgs.map Ev.send ++ vecCloseFds.map Ev.closeFd ++ [Ev.freeMem]))

/-- Environment of one `ivshmem_server_handle_fds` call: the `fd_set` and
`maxfd` handed in by the event-loop owner, the environment of the (at most
one) `ivshmem_server_handle_new_conn` call, and whether `errno` is `EINTR`
after that call fails. -/
structure FdsEnv where
  fds : Int → Bool
  maxfd : Int
  conn : ConnEnv
  errnoEintr : Bool

/-- `fd < maxfd && FD_ISSET(fd, fds)`. -/
def fdReady (e : FdsEnv) (fd : Int) : Bool :=
  decide (fd < e.maxfd) && e.fds fd

/-- The `QTAILQ_FOREACH_SAFE` sweep of `ivshmem_server_handle_fds`: any
readiness on a peer socket frees that peer.  The safe-iteration caches the
next element, and `free_peer` removes only the current one, so the sweep
visits exactly the elements of the list as it stood when the sweep began. -/
def sweepPeers (e : FdsEnv) : Server → List Peer → Server × List Ev
  | s, [] => (s, [])
  | s, p :: rest =>
    if fdReady e p.sockFd then
      let (s1, evs1) := ivshmem_server_free_peer s p
      let (s2, evs2) := sweepPeers e s1 rest
      (s2, evs1 ++ evs2)
    else sweepPeers e s rest

/-- `ivshmem_server_handle_fds`: one dispatch cycle.  The listening socket is
serviced first; a failed `ivshmem_server_handle_new_conn` aborts the cycle
with `-1` unless `errno == EINTR`; then every ready peer socket is treated as
a disconnection. -/
def ivshmem_server_handle_fds (s : Server) (e : FdsEnv) : Server × Int × List Ev :=
  if fdReady e s.sockFd then
    let r := ivshmem_server_handle_new_conn s e.conn
    if r.ret < 0 && !e.errnoEintr then (r.server, -1, r.events)
    else
      ((sweepPeers e r.server r.server.peerList).1, 0,
        r.events ++ (sweepPeers e r.server r.server.peerList).2)
  else
    ((sweepPeers e s s.peerList).1, 0, (sweepPeers e s s.peerList).2)

/-- One step of the bit-smearing alignment: `x |= x >> k`. -/
def smearStep (x k : Nat) : Nat := x ||| (x >>> k)

/-- The power-of-two alignment of `ivshmem_server_ftruncate`, on the
32-bit `unsigned` parameter: `shmsize--`, five smearing steps, `shmsize++`.
The decrement and the final increment wrap modulo `2 ^ 32`; the smearing
steps cannot overflow. -/
def alignTo2 (shmsize : Nat) : Nat :=
  let x0 := (shmsize % 2 ^ 32 + (2 ^ 32 - 1)) % 2 ^ 32
  let x1 := smearStep x0 1
  let x2 := smearStep x1 2
  let x3 := smearStep x2 4
  let x4 := smearStep x3 8
  let x5 := smearStep x4 16
  (x5 + 1) % 2 ^ 32

/-- The retry loop of `ivshmem_server_ftruncate`: try `shmsize`, doubling on
rejection, until a size is accepted or the candidate exceeds 1 GiB.  `accept`
tells whether the underlying `ftruncate` accepts a given size; `some sz`
means the C function returns `0` with the object sized `sz`, `none` that it
returns `-1`.  The fuel bounds the iterations; any candidate `≥ 1` leaves the
loop within 32 doublings, so fuel 33 is exact there (for candidate `0`, which
the C code can reach by wrapping, the C loop never terminates unless size `0`
is accepted at once). -/
def ftruncLoop (accept : Nat → Bool) : Nat → Nat → Option Nat
  | _, 0 => none
  | shmsize, fuel + 1 =>
    if shmsize ≤ IVSHMEM_SERVER_MAX_HUGEPAGE_SIZE then
      if accept shmsize then some shmsize
      else ftruncLoop accept (shmsize * 2 % 2 ^ 32) fuel
    else none

/-- `ivshmem_server_ftruncate(fd, shmsize)`. -/
def ivshmem_server_ftruncate (accept : Nat → Bool) (shmsize : Nat) : Option Nat :=
  ftruncLoop accept (alignTo2 shmsize) 33

/-- `ivshmem_server_init`: `memset` to zero, then record the configuration
(the path-length checks concern only the out-of-scope configuration layer). -/
def ivshmem_server_init (unixSockPath shmPath : String) (shmSize : Nat)
    (nVectors : Nat) (verbose : Bool) : Server :=
  { unixSockPath := unixSockPath, shmPath := shmPath, shmSize := shmSize,
    nVectors := nVectors, verbose := verbose, shmFd := 0, sockFd := 0,
    curId := 0, peerList := [] }

/-- An abstract connect/disconnect operation, for stating registry
invariants over arbitrary operation sequences.  A disconnect targets a peer
id; it frees the peer if present (as the dispatcher does on socket
readiness) and is a no-op otherwise. -/
inductive Op where
  | connect (env : ConnEnv)
  | disconnect (peerId : Int)

/-- One operation applied to the server state. -/
def stepOp (s : Server) : Op → Server
  | .connect env => (ivshmem_server_handle_new_conn s env).server
  | .disconnect pid =>
    match ivshmem_server_search_peer s.peerList pid with
    | some p => (ivshmem_server_free_peer s p).1
    | none => s

/-- A sequence of operations applied to the server state. -/
def runOps (s : Server) (ops : List Op) : Server := ops.foldl stepOp s

/-- The messages among a list of events, in order. -/
def msgsOf (evs : List Ev) : List Msg :=
  evs.filterMap fun e =>
    match e with
    | .send m => some m
    | _ => none

/-- The file descriptors closed among a list of events, in order. -/
def closedOf (evs : List Ev) : List Int :=
  evs.filterMap fun e =>
    match e with
    | .closeFd f => some f
    | _ => none

/-- The registry invariant maintained by the server: distinct peer ids, all
below `cur_id`, and every peer fully populated with `n_vectors` nonnegative
vectors. -/
def ServerInv (s : Server) : Prop :=
  (s.peerList.map Peer.id).Nodup ∧
  (∀ p ∈ s.peerList, p.id < s.curId) ∧
  (∀ p ∈ s.peerList, p.vectorsCount = s.nVectors ∧
    p.vectors.length = s.nVectors ∧ ∀ v ∈ p.vectors, 0 ≤ v)

def smearIter (y : Nat) : Nat → Nat
  | 0 => y
  | m + 1 => smearStep (smearIter y m) (2 ^ m)

/-- Scenario for the id-reuse claim: all system calls succeed; one vector per
peer. -/
def connEnvA : ConnEnv := ⟨10, fun _ => 20, fun _ => 8⟩

/-- Second connecting peer of the scenario. -/
def connEnvB : ConnEnv := ⟨11, fun _ => 21, fun _ => 8⟩

/-- Third connecting peer of the scenario. -/
def connEnvC : ConnEnv := ⟨12, fun _ => 22, fun _ => 8⟩

/-- Fresh server of the id-reuse scenario. -/
def serverFresh1 : Server := ivshmem_server_init "sock" "shm" 4096 1 false

/-- Fresh server with two vectors per peer, for the failing-handshake
scenarios. -/
def serverFresh2 : Server := ivshmem_server_init "sock" "shm" 4096 2 false

/-- Environment whose second `eventfd` call fails (after one vector was
allocated). -/
def connEnvFail : ConnEnv := ⟨13, fun i => if i = 1 then -1 else 30, fun _ => 8⟩

/-- Registered peer 0 of the concrete two-peer state. -/
def peerX : Peer := ⟨0, 10, 1, [20]⟩

/-- Registered peer 1 of the concrete two-peer state. -/
def peerY : Peer := ⟨1, 11, 1, [21]⟩

/-- A server with two registered peers. -/
def serverTwoPeers : Server :=
  { unixSockPath := "sock", shmPath := "shm", shmSize := 4096, nVectors := 1,
    verbose := false, shmFd := 3, sockFd := 4, curId := 2,
    peerList := [peerX, peerY] }

/-- A connection environment agreeing with `connEnvC` on accept, eventfd and
the first three sendmsg results, but whose broadcast sends all fail. -/
def connEnvC2 : ConnEnv := ⟨12, fun _ => 22, fun k => if k < 3 then 8 else -5⟩

/-- Dispatch environment: the listening socket (fd 4) is ready, no peer
socket is ready, `errno` is not `EINTR`. -/
def fdsEnvW : FdsEnv := ⟨fun fd => fd == 4, 100, connEnvC, false⟩

theorem search_peer_eq_none_iff (peers : List Peer) (pid : Int) :
    ivshmem_server_search_peer peers pid = none ↔ ∀ p ∈ peers, p.id ≠ pid := by
  simp [ivshmem_server_search_peer, List.find?_eq_none]

theorem search_peer_mem {peers : List Peer} {pid : Int} {p : Peer}
    (h : ivshmem_server_search_peer peers pid = some p) : p ∈ peers :=
  List.mem_of_find?_eq_some h

theorem probeFrom_ge (peers : List Peer) :
    ∀ (fuel : Nat) (c : Int), c ≤ probeFrom peers c fuel := by
  intro fuel
  induction fuel with
  | zero => intro c; simp [probeFrom]
  | succ n ih =>
    intro c
    simp only [probeFrom]
    split
    · exact le_trans (by omega) (ih (c + 1))
    · exact le_refl c

theorem probeFrom_eq_of_none {peers : List Peer} {c : Int}
    (h : ivshmem_server_search_peer peers c = none) :
    ∀ fuel, probeFrom peers c fuel = c := by
  intro fuel
  cases fuel with
  | zero => rfl
  | succ n => simp [probeFrom, h]

theorem probe_cur_id_ge (peers : List Peer) (c : Int) : c ≤ probe_cur_id peers c :=
  probeFrom_ge peers _ c

theorem probe_cur_id_eq_of_none {peers : List Peer} {c : Int}
    (h : ivshmem_server_search_peer peers c = none) : probe_cur_id peers c = c :=
  probeFrom_eq_of_none h _

theorem allocVectorsGo_ok {res : Nat → Int} :
    ∀ (k i : Nat) (acc l : List Int), allocVectorsGo res i k acc = .ok l →
      l = acc ++ (List.range' i k).map res ∧
      ∀ j, i ≤ j → j < i + k → 0 ≤ res j := by
  intro k
  induction k with
  | zero =>
    intro i acc l h
    simp only [allocVectorsGo, Except.ok.injEq] at h
    subst h
    refine ⟨by simp, ?_⟩
    omega
  | succ n ih =>
    intro i acc l h
    simp only [allocVectorsGo] at h
    split at h
    · exact absurd h (by simp)
    · rename_i hres
      obtain ⟨h1, h2⟩ := ih (i + 1) (acc ++ [res i]) l h
      constructor
      · rw [h1, List.range'_succ]
        simp
      · intro j hj1 hj2
        rcases eq_or_lt_of_le hj1 with rfl | hlt
        · omega
        · exact h2 j (by omega) (by omega)

theorem allocVectors_ok {res : Nat → Int} {n : Nat} {l : List Int}
    (h : allocVectors res n = .ok l) :
    l = (List.range n).map res ∧ l.length = n ∧ ∀ v ∈ l, 0 ≤ v := by
  obtain ⟨h1, h2⟩ := allocVectorsGo_ok n 0 [] l h
  rw [List.range_eq_range']
  refine ⟨by simpa using h1, ?_, ?_⟩
  · simp [h1]
  · intro v hv
    rw [h1] at hv
    simp only [List.nil_append, List.mem_map, List.mem_range'_1] at hv
    obtain ⟨j, hj, rfl⟩ := hv
    exact h2 j (by omega) (by omega)

theorem allocVectorsGo_ok_of_nonneg {res : Nat → Int} (hres : ∀ j, 0 ≤ res j) :
    ∀ (k i : Nat) (acc : List Int),
      allocVectorsGo res i k acc = .ok (acc ++ (List.range' i k).map res) := by
  intro k
  induction k with
  | zero => intro i acc; simp [allocVectorsGo]
  | succ n ih =>
    intro i acc
    simp only [allocVectorsGo, not_lt.mpr (hres i), if_neg (not_lt.mpr (hres i))]
    rw [List.range'_succ]
    simpa using ih (i + 1) (acc ++ [res i])

theorem allocVectors_ok_of_nonneg {res : Nat → Int} (hres : ∀ j, 0 ≤ res j) (n : Nat) :
    allocVectors res n = .ok ((List.range n).map res) := by
  rw [List.range_eq_range']
  simpa using allocVectorsGo_ok_of_nonneg hres n 0 []

theorem handleNewConn_cases (s : Server) (env : ConnEnv) :
    (ivshmem_server_handle_new_conn s env).server = s ∨
    (ivshmem_server_handle_new_conn s env).server =
      { s with curId := probe_cur_id s.peerList s.curId + 1 } ∨
    ∃ l, allocVectors env.eventfdRes s.nVectors = .ok l ∧
      (ivshmem_server_handle_new_conn s env).server =
        { s with curId := probe_cur_id s.peerList s.curId + 1,
                 peerList := s.peerList ++
                   [⟨probe_cur_id s.peerList s.curId, env.newfd, s.nVectors, l⟩] } := by
  by_cases h : env.newfd < 0
  · left
    simp [ivshmem_server_handle_new_conn, h]
  · rcases halloc : allocVectors env.eventfdRes s.nVectors with l | l
    · right; left
      simp [ivshmem_server_handle_new_conn, h, halloc]
    · rcases hinfo : ivshmem_server_send_initial_info env.sendmsgRes s.shmFd
        ⟨probe_cur_id s.peerList s.curId, env.newfd, s.nVectors, l⟩ with ⟨r, msgs⟩
      by_cases hr : r < 0
      · right; left
        simp [ivshmem_server_handle_new_conn, h, halloc, hinfo, hr]
      · right; right
        exact ⟨l, rfl, by
          simp [ivshmem_server_handle_new_conn, h, halloc, hinfo, hr]⟩

theorem inv_curId_not_mem {s : Server} (h : ServerInv s) :
    ∀ p ∈ s.peerList, p.id ≠ s.curId := fun p hp => ne_of_lt (h.2.1 p hp)

theorem probe_eq_curId_of_inv {s : Server} (h : ServerInv s) :
    probe_cur_id s.peerList s.curId = s.curId :=
  probe_cur_id_eq_of_none ((search_peer_eq_none_iff _ _).mpr (inv_curId_not_mem h))

theorem inv_stepOp {s : Server} (op : Op) (h : ServerInv s) : ServerInv (stepOp s op) := by
  obtain ⟨hnd, hlt, hvec⟩ := h
  cases op with
  | connect env =>
    rcases handleNewConn_cases s env with hc | hc | ⟨l, hl, hc⟩
    · simp only [stepOp, hc]
      exact ⟨hnd, hlt, hvec⟩
    · simp only [stepOp, hc]
      refine ⟨hnd, ?_, hvec⟩
      intro p hp
      show p.id < probe_cur_id s.peerList s.curId + 1
      have h1 := hlt p hp
      have h2 := probe_cur_id_ge s.peerList s.curId
      omega
    · have hpid : probe_cur_id s.peerList s.curId = s.curId :=
        probe_eq_curId_of_inv ⟨hnd, hlt, hvec⟩
      obtain ⟨-, hlen, hnn⟩ := allocVectors_ok hl
      simp only [stepOp, hc]
      refine ⟨?_, ?_, ?_⟩
      · rw [List.map_append, hpid]
        simp only [List.map_cons, List.map_nil, List.nodup_append]
        refine ⟨hnd, List.nodup_singleton _, ?_⟩
        intro x hx hx1
        simp only [List.mem_singleton] at hx1
        subst hx1
        obtain ⟨p, hp, hpe⟩ := List.mem_map.mp hx
        exact absurd hpe (inv_curId_not_mem ⟨hnd, hlt, hvec⟩ p hp)
      · intro p hp
        show p.id < probe_cur_id s.peerList s.curId + 1
        rcases List.mem_append.mp hp with hp | hp
        · have h1 := hlt p hp
          have h2 := probe_cur_id_ge s.peerList s.curId
          omega
        · simp only [List.mem_singleton] at hp
          subst hp
          show probe_cur_id s.peerList s.curId < probe_cur_id s.peerList s.curId + 1
          omega
      · intro p hp
        rcases List.mem_append.mp hp with hp | hp
        · exact hvec p hp
        · simp only [List.mem_singleton] at hp
          subst hp
          exact ⟨rfl, hlen, hnn⟩
  | disconnect pid =>
    rcases hs : ivshmem_server_search_peer s.peerList pid with - | p
    · simp only [stepOp, hs]
      exact ⟨hnd, hlt, hvec⟩
    · simp only [stepOp, hs, ivshmem_server_free_peer]
      refine ⟨?_, ?_, ?_⟩
      · exact List.Nodup.sublist ((List.erase_sublist p s.peerList).map Peer.id) hnd
      · exact fun q hq => hlt q (List.mem_of_mem_erase hq)
      · exact fun q hq => hvec q (List.mem_of_mem_erase hq)

theorem inv_runOps {s : Server} (ops : List Op) (h : ServerInv s) :
    ServerInv (runOps s ops) := by
  induction ops generalizing s with
  | nil => exact h
  | cons op rest ih => exact ih (inv_stepOp op h)

theorem inv_init (usp shp : String) (sz nv : Nat) (vb : Bool) :
    ServerInv (ivshmem_server_init usp shp sz nv vb) := by
  refine ⟨?_, ?_, ?_⟩ <;> simp [ivshmem_server_init]

theorem stepOp_nVectors (s : Server) (op : Op) : (stepOp s op).nVectors = s.nVectors := by
  cases op with
  | connect env =>
    rcases handleNewConn_cases s env with hc | hc | ⟨l, -, hc⟩ <;> simp [stepOp, hc]
  | disconnect pid =>
    rcases hs : ivshmem_server_search_peer s.peerList pid with - | p <;>
      simp [stepOp, hs, ivshmem_server_free_peer]

theorem runOps_nVectors (s : Server) (ops : List Op) :
    (runOps s ops).nVectors = s.nVectors := by
  induction ops generalizing s with
  | nil => rfl
  | cons op rest ih => rw [runOps, List.foldl_cons, ← runOps, ih, stepOp_nVectors]

/-- C1: starting from a freshly initialized server, after any sequence of
connect and disconnect operations the identifiers of the currently
registered peers are pairwise distinct, and the identifier the probing loop
of `ivshmem_server_handle_new_conn` would assign to a newly connecting peer
is never an identifier held by a still-connected peer. -/
theorem connected_peer_ids_unique (usp shp : String) (sz nv : Nat) (vb : Bool)
    (ops : List Op) :
    ((runOps (ivshmem_server_init usp shp sz nv vb) ops).peerList.map Peer.id).Nodup ∧
    probe_cur_id (runOps (ivshmem_server_init usp shp sz nv vb) ops).peerList
        (runOps (ivshmem_server_init usp shp sz nv vb) ops).curId ∉
      (runOps (ivshmem_server_init usp shp sz nv vb) ops).peerList.map Peer.id := by
  have h := inv_runOps ops (inv_init usp shp sz nv vb)
  refine ⟨h.1, ?_⟩
  rw [probe_eq_curId_of_inv h]
  intro hmem
  obtain ⟨p, hp, hpe⟩ := List.mem_map.mp hmem
  exact inv_curId_not_mem h p hp hpe

/-- C9: in every reachable server state, every registered peer carries
exactly the configured `n_vectors` vectors; hence the handshake loop that
reads `other_peer->vectors[i]` for each `i` below the new peer's
`vectors_count` (which equals `n_vectors`) never accesses any registered
peer's vector list out of bounds. -/
theorem peer_vectors_in_bounds (usp shp : String) (sz nv : Nat) (vb : Bool)
    (ops : List Op) :
    (runOps (ivshmem_server_init usp shp sz nv vb) ops).nVectors = nv ∧
    (∀ p ∈ (runOps (ivshmem_server_init usp shp sz nv vb) ops).peerList,
      p.vectorsCount = nv ∧ p.vectors.length = nv) ∧
    (∀ other ∈ (runOps (ivshmem_server_init usp shp sz nv vb) ops).peerList,
      ∀ i, i < nv → (other.vectors.get? i).isSome) := by
  have h := inv_runOps ops (inv_init usp shp sz nv vb)
  have hn : (runOps (ivshmem_server_init usp shp sz nv vb) ops).nVectors = nv :=
    runOps_nVectors _ ops
  refine ⟨hn, fun p hp => ⟨(h.2.2 p hp).1.trans hn, (h.2.2 p hp).2.1.trans hn⟩, ?_⟩
  intro other hother i hi
  have hlen : other.vectors.length = nv := (h.2.2 other hother).2.1.trans hn
  rw [List.get?_eq_get (by omega)]
  rfl

/-- C7 counterexample: if the underlying `sendmsg` performs a partial write
of 4 of the 8 payload bytes, it returns 4 > 0 and
`ivshmem_server_send_one_msg` reports success (0), not failure. -/
theorem send_one_msg_partial_write_reports_success :
    (ivshmem_server_send_one_msg 4 5 7 (-1)).1 = 0 ∧ (0 : Int) < 4 ∧
      (4 : Int) < payloadSize := by
  decide

/-- C7 amended: `ivshmem_server_send_one_msg` reports failure exactly when
the underlying write returns zero or a negative value; a partial write of a
positive number of bytes smaller than the payload is treated as success. -/
theorem send_one_msg_fails_iff_nonpos (r sockFd peerId fd : Int) :
    (ivshmem_server_send_one_msg r sockFd peerId fd).1 = -1 ↔ r ≤ 0 := by
  unfold ivshmem_server_send_one_msg
  by_cases h : r ≤ 0 <;> simp [h]

/-- C4 counterexample: peers get ids 0 and 1, the peer with id 1
disconnects, a third peer connects -- the registry then holds ids 0 and 2,
refuting the claim that the third peer is assigned the reused id 1. -/
theorem next_id_after_disconnect_not_one :
    ((runOps serverFresh1
        [.connect connEnvA, .connect connEnvB, .disconnect 1, .connect connEnvC]).peerList.map
      Peer.id) ≠ [0, 1] := by
  decide

/-- C4 amended: identifiers are NOT reused immediately after disconnection:
`cur_id` is monotone and never rolled back, so in the scenario of the claim
the third connecting peer is assigned id 2, not id 1 (an id becomes
unavailable forever once `cur_id` has passed it). -/
theorem next_id_after_disconnect_is_two :
    ((runOps serverFresh1
        [.connect connEnvA, .connect connEnvB, .disconnect 1, .connect connEnvC]).peerList.map
      Peer.id) = [0, 2] := by
  decide

theorem msgsOf_append (a b : List Ev) : msgsOf (a ++ b) = msgsOf a ++ msgsOf b :=
  List.filterMap_append a b _

theorem closedOf_append (a b : List Ev) : closedOf (a ++ b) = closedOf a ++ closedOf b :=
  List.filterMap_append a b _

theorem msgsOf_sends (l : List Msg) : msgsOf (l.map Ev.send) = l := by
  unfold msgsOf
  rw [List.filterMap_map]
  show List.filterMap some l = l
  simp

theorem msgsOf_closes (l : List Int) : msgsOf (l.map Ev.closeFd) = [] := by
  unfold msgsOf
  rw [List.filterMap_map]
  show List.filterMap (fun _ => none) l = []
  simp

theorem closedOf_sends (l : List Msg) : closedOf (l.map Ev.send) = [] := by
  unfold closedOf
  rw [List.filterMap_map]
  show List.filterMap (fun _ => none) l = []
  simp

theorem closedOf_closes (l : List Int) : closedOf (l.map Ev.closeFd) = l := by
  unfold closedOf
  rw [List.filterMap_map]
  show List.filterMap some l = l
  simp

theorem closedOf_fail_tail (f : Int) : closedOf [Ev.closeFd f, Ev.freeMem] = [f] := rfl

theorem msgsOf_fail_tail (f : Int) : msgsOf [Ev.closeFd f, Ev.freeMem] = [] := rfl

theorem msgsOf_insert_tail (pid : Int) : msgsOf [Ev.insertPeer pid] = [] := rfl

theorem closedOf_closes_reverse (l : List Int) :
    closedOf (List.map Ev.closeFd l).reverse = l.reverse := by
  rw [← List.map_reverse]
  exact closedOf_closes l.reverse

theorem handleNewConn_fail_unwind (s : Server) (env : ConnEnv) (hnf : 0 ≤ env.newfd)
    (hfail : (ivshmem_server_handle_new_conn s env).ret = -1) :
    (ivshmem_server_handle_new_conn s env).server =
      { s with curId := probe_cur_id s.peerList s.curId + 1 } ∧
    closedOf (ivshmem_server_handle_new_conn s env).events =
      (allocatedVectors env.eventfdRes s.nVectors).reverse ++ [env.newfd] ∧
    Ev.freeMem ∈ (ivshmem_server_handle_new_conn s env).events ∧
    ∀ pid, Ev.insertPeer pid ∉ (ivshmem_server_handle_new_conn s env).events := by
  have h : ¬env.newfd < 0 := not_lt.mpr hnf
  rcases halloc : allocVectors env.eventfdRes s.nVectors with l | l
  · refine ⟨?_, ?_, ?_, ?_⟩ <;>
      simp [ivshmem_server_handle_new_conn, h, halloc, allocatedVectors,
        closedOf_append, closedOf_closes, closedOf_closes_reverse, closedOf_fail_tail]
  · rcases hinfo : ivshmem_server_send_initial_info env.sendmsgRes s.shmFd
      ⟨probe_cur_id s.peerList s.curId, env.newfd, s.nVectors, l⟩ with ⟨r, msgs⟩
    by_cases hr : r < 0
    · refine ⟨?_, ?_, ?_, ?_⟩ <;>
        simp [ivshmem_server_handle_new_conn, h, halloc, hinfo, hr, allocatedVectors,
          closedOf_append, closedOf_closes, closedOf_closes_reverse, closedOf_sends,
          closedOf_fail_tail]
    · exfalso
      simp [ivshmem_server_handle_new_conn, h, halloc, hinfo, hr] at hfail

theorem handleNewConn_insert_only_after_sends (s : Server) (env : ConnEnv) :
    ∀ pid, Ev.insertPeer pid ∈ (ivshmem_server_handle_new_conn s env).events →
      (ivshmem_server_handle_new_conn s env).events =
        (msgsOf (ivshmem_server_handle_new_conn s env).events).map Ev.send ++
          [Ev.insertPeer pid] := by
  intro pid hmem
  by_cases h : env.newfd < 0
  · simp [ivshmem_server_handle_new_conn, h] at hmem
  · rcases halloc : allocVectors env.eventfdRes s.nVectors with l | l
    · simp [ivshmem_server_handle_new_conn, h, halloc] at hmem
    · rcases hinfo : ivshmem_server_send_initial_info env.sendmsgRes s.shmFd
        ⟨probe_cur_id s.peerList s.curId, env.newfd, s.nVectors, l⟩ with ⟨r, msgs⟩
      by_cases hr : r < 0
      · simp [ivshmem_server_handle_new_conn, h, halloc, hinfo, hr] at hmem
      · have hpid : pid = probe_cur_id s.peerList s.curId := by
          simp [ivshmem_server_handle_new_conn, h, halloc, hinfo, hr] at hmem
          exact hmem
        subst hpid
        simp [ivshmem_server_handle_new_conn, h, halloc, hinfo, hr,
          msgsOf_append, msgsOf_sends, msgsOf_insert_tail]

/-- C10: when a handshake aborts after a successful accept, the resulting
server state differs from the original only in `cur_id`: the registry, the
listening socket, the shared-memory handle and all configuration fields are
unchanged, while `cur_id` has advanced past the probed id and is not rolled
back, so any later probe (over any registry contents) yields an id strictly
greater than the one consumed by the failed connection. -/
theorem aborted_handshake_frame (s : Server) (env : ConnEnv) (hnf : 0 ≤ env.newfd)
    (hfail : (ivshmem_server_handle_new_conn s env).ret = -1) :
    (ivshmem_server_handle_new_conn s env).server =
      { s with curId := probe_cur_id s.peerList s.curId + 1 } ∧
    s.curId ≤ probe_cur_id s.peerList s.curId ∧
    ∀ l : List Peer, probe_cur_id s.peerList s.curId <
      probe_cur_id l (probe_cur_id s.peerList s.curId + 1) := by
  refine ⟨(handleNewConn_fail_unwind s env hnf hfail).1, probe_cur_id_ge _ _, ?_⟩
  intro l
  have h1 := probe_cur_id_ge l (probe_cur_id s.peerList s.curId + 1)
  omega

/-- Witness for the aborted-handshake frame condition at a concrete failing
connection. -/
theorem aborted_handshake_frame_witness :
    (ivshmem_server_handle_new_conn serverFresh2 connEnvFail).server =
      { serverFresh2 with
        curId := probe_cur_id serverFresh2.peerList serverFresh2.curId + 1 } ∧
    serverFresh2.curId ≤ probe_cur_id serverFresh2.peerList serverFresh2.curId := by
  have h := aborted_handshake_frame serverFresh2 connEnvFail (by decide) (by decide)
  exact ⟨h.1, h.2.1⟩

/-- C3: a handshake that fails during vector allocation or during the three
initial sends closes exactly the vectors allocated so far (in reverse order
of allocation) and the new socket, frees the peer structure, never emits an
insertion, and leaves the registry exactly as it was; and a peer is inserted
into the registry only as the last event, after every send of the handshake
has been issued. -/
theorem failed_handshake_unwinds (s : Server) (env : ConnEnv) (hnf : 0 ≤ env.newfd) :
    ((ivshmem_server_handle_new_conn s env).ret = -1 →
      (ivshmem_server_handle_new_conn s env).server.peerList = s.peerList ∧
      closedOf (ivshmem_server_handle_new_conn s env).events =
        (allocatedVectors env.eventfdRes s.nVectors).reverse ++ [env.newfd] ∧
      Ev.freeMem ∈ (ivshmem_server_handle_new_conn s env).events ∧
      ∀ pid, Ev.insertPeer pid ∉ (ivshmem_server_handle_new_conn s env).events) ∧
    (∀ pid, Ev.insertPeer pid ∈ (ivshmem_server_handle_new_conn s env).events →
      (ivshmem_server_handle_new_conn s env).events =
        (msgsOf (ivshmem_server_handle_new_conn s env).events).map Ev.send ++
          [Ev.insertPeer pid]) := by
  constructor
  · intro hfail
    obtain ⟨h1, h2, h3, h4⟩ := handleNewConn_fail_unwind s env hnf hfail
    refine ⟨by rw [h1], h2, h3, h4⟩
  · exact handleNewConn_insert_only_after_sends s env

/-- Witness for the failed-handshake unwind at a concrete connection whose
second `eventfd` call fails: the one allocated vector (30) and the new
socket (13) are closed, the peer is freed, and the registry stays empty. -/
theorem failed_handshake_unwinds_witness :
    (ivshmem_server_handle_new_conn serverFresh2 connEnvFail).server.peerList =
      serverFresh2.peerList ∧
    closedOf (ivshmem_server_handle_new_conn serverFresh2 connEnvFail).events =
      (allocatedVectors connEnvFail.eventfdRes serverFresh2.nVectors).reverse ++
        [connEnvFail.newfd] ∧
    Ev.freeMem ∈ (ivshmem_server_handle_new_conn serverFresh2 connEnvFail).events := by
  have h := (failed_handshake_unwinds serverFresh2 connEnvFail (by decide)).1 (by decide)
  exact ⟨h.1, h.2.1, h.2.2.1⟩

theorem msgsOf_cons_close (f : Int) (evs : List Ev) :
    msgsOf (Ev.closeFd f :: evs) = msgsOf evs := rfl

theorem msgsOf_free_tail : msgsOf [Ev.freeMem] = [] := rfl

/-- C5: freeing a registered peer closes its socket first, removes it from
the registry BEFORE the broadcast loop, then sends to each remaining peer
(in registry order) exactly one message whose payload is the departing id
and which carries no descriptor -- none of these messages is addressed to
the departing peer itself -- and only after the broadcast closes the
departing peer's vectors and frees it. -/
theorem free_peer_broadcast (s : Server) (p : Peer) (hmem : p ∈ s.peerList)
    (hnd : (s.peerList.map Peer.sockFd).Nodup) :
    (ivshmem_server_free_peer s p).1.peerList = s.peerList.erase p ∧
    (ivshmem_server_free_peer s p).2 =
      Ev.closeFd p.sockFd ::
        (((s.peerList.erase p).map fun o => mkMsg o.sockFd p.id (-1)).map Ev.send ++
          ((List.range p.vectorsCount).map fun i => p.vectors.getD i (-1)).map
            Ev.closeFd ++ [Ev.freeMem]) ∧
    (msgsOf (ivshmem_server_free_peer s p).2).map Msg.dest =
      (s.peerList.erase p).map Peer.sockFd ∧
    ∀ m ∈ msgsOf (ivshmem_server_free_peer s p).2,
      m.payload = p.id ∧ m.fd = none ∧ m.dest ≠ p.sockFd := by
  have hmsgs : msgsOf (ivshmem_server_free_peer s p).2 =
      (s.peerList.erase p).map fun o => mkMsg o.sockFd p.id (-1) := by
    show msgsOf (Ev.closeFd p.sockFd :: _) = _
    rw [msgsOf_cons_close, msgsOf_append, msgsOf_append, msgsOf_sends,
      msgsOf_closes, msgsOf_free_tail, List.append_nil, List.append_nil]
  refine ⟨rfl, rfl, ?_, ?_⟩
  · rw [hmsgs, List.map_map]
    exact List.map_congr_left fun o _ => rfl
  · intro m hm
    rw [hmsgs] at hm
    obtain ⟨o, ho, rfl⟩ := List.mem_map.mp hm
    have hop : o ≠ p ∧ o ∈ s.peerList :=
      (List.Nodup.mem_erase_iff (List.Nodup.of_map _ hnd)).mp ho
    refine ⟨rfl, by simp [mkMsg], ?_⟩
    show o.sockFd ≠ p.sockFd
    intro heq
    exact hop.1 (List.inj_on_of_nodup_map hnd hop.2 hmem heq)

/-- Witness for the disconnection broadcast at a concrete two-peer server:
freeing peer 1 leaves only peer 0 and addresses the single broadcast
message to peer 0's socket. -/
theorem free_peer_broadcast_witness :
    (ivshmem_server_free_peer serverTwoPeers peerY).1.peerList =
      serverTwoPeers.peerList.erase peerY ∧
    (msgsOf (ivshmem_server_free_peer serverTwoPeers peerY).2).map Msg.dest =
      (serverTwoPeers.peerList.erase peerY).map Peer.sockFd := by
  have h := free_peer_broadcast serverTwoPeers peerY (by decide) (by decide)
  exact ⟨h.1, h.2.2.1⟩

theorem map_mkMsg_getD_range (a b : Int) (l : List Int) :
    (List.range l.length).map (fun i => mkMsg a b (l.getD i (-1))) =
      l.map fun v => mkMsg a b v := by
  induction l with
  | nil => rfl
  | cons v t ih =>
    rw [List.length_cons, List.range_succ_eq_map, List.map_cons, List.map_map,
      List.map_cons]
    refine congrArg₂ _ rfl ?_
    rw [← ih]
    exact List.map_congr_left fun i _ => rfl

theorem flatMap_congr_mem {α β : Type} {l : List α} {f g : α → List β}
    (h : ∀ x ∈ l, f x = g x) : l.flatMap f = l.flatMap g := by
  induction l with
  | nil => rfl
  | cons a t ih =>
    rw [List.flatMap_cons, List.flatMap_cons, h a (by simp),
      ih fun x hx => h x (List.mem_cons_of_mem a hx)]

theorem advertiseNewToOthers_eq (peers : List Peer) (p : Peer)
    (hlen : p.vectors.length = p.vectorsCount) (hnn : ∀ v ∈ p.vectors, 0 ≤ v) :
    advertiseNewToOthers peers p =
      peers.flatMap fun o => p.vectors.map fun v =>
        { dest := o.sockFd, payload := p.id, fd := some v } := by
  unfold advertiseNewToOthers
  refine flatMap_congr_mem fun o _ => ?_
  rw [← hlen, map_mkMsg_getD_range]
  exact List.map_congr_left fun v hv => by simp [mkMsg, hnn v hv]

theorem advertiseOthersToNew_eq (peers : List Peer) (p : Peer)
    (hlen : ∀ o ∈ peers, o.vectors.length = p.vectorsCount)
    (hnn : ∀ o ∈ peers, ∀ v ∈ o.vectors, 0 ≤ v) :
    advertiseOthersToNew peers p =
      peers.flatMap fun o => o.vectors.map fun v =>
        { dest := p.sockFd, payload := o.id, fd := some v } := by
  unfold advertiseOthersToNew
  refine flatMap_congr_mem fun o ho => ?_
  rw [← hlen o ho, map_mkMsg_getD_range]
  exact List.map_congr_left fun v hv => by simp [mkMsg, hnn o ho v hv]

theorem advertiseNewToItself_eq (p : Peer)
    (hlen : p.vectors.length = p.vectorsCount) (hnn : ∀ v ∈ p.vectors, 0 ≤ v) :
    advertiseNewToItself p =
      p.vectors.map fun v => { dest := p.sockFd, payload := p.id, fd := some v } := by
  unfold advertiseNewToItself
  rw [← hlen, map_mkMsg_getD_range]
  exact List.map_congr_left fun v hv => by simp [mkMsg, hnn v hv]

theorem send_initial_info_pos {sendRes : Nat → Int} (h0 : 0 < sendRes 0)
    (h1 : 0 < sendRes 1) (h2 : 0 < sendRes 2) (shmFd : Int) (peer : Peer) :
    ivshmem_server_send_initial_info sendRes shmFd peer =
      (0, [mkMsg peer.sockFd IVSHMEM_PROTOCOL_VERSION (-1),
           mkMsg peer.sockFd peer.id (-1), mkMsg peer.sockFd (-1) shmFd]) := by
  unfold ivshmem_server_send_initial_info ivshmem_server_send_one_msg
  simp [not_le.mpr h0, not_le.mpr h1, not_le.mpr h2]

theorem filter_dest_flatMap_of_ne {peers : List Peer} {g : Peer → List Msg} {d : Int}
    (hg : ∀ o ∈ peers, ∀ m ∈ g o, m.dest = o.sockFd)
    (hd : d ∉ peers.map Peer.sockFd) :
    (peers.flatMap g).filter (fun m => m.dest == d) = [] := by
  induction peers with
  | nil => rfl
  | cons a t ih =>
    simp only [List.map_cons, List.mem_cons, not_or] at hd
    rw [List.flatMap_cons, List.filter_append,
      ih (fun o ho m hm => hg o (List.mem_cons_of_mem a ho) m hm) hd.2,
      List.append_nil, List.filter_eq_nil_iff]
    intro m hm
    rw [hg a (List.mem_cons_self a t) m hm]
    simp only [beq_iff_eq]
    exact fun he => hd.1 he.symm

theorem filter_dest_flatMap_self {peers : List Peer} {g : Peer → List Msg} {o : Peer}
    (hg : ∀ q ∈ peers, ∀ m ∈ g q, m.dest = q.sockFd)
    (hnd : (peers.map Peer.sockFd).Nodup) (ho : o ∈ peers) :
    (peers.flatMap g).filter (fun m => m.dest == o.sockFd) = g o := by
  induction peers with
  | nil => cases ho
  | cons a t ih =>
    simp only [List.map_cons, List.nodup_cons] at hnd
    rw [List.flatMap_cons, List.filter_append]
    rcases List.mem_cons.mp ho with rfl | ho'
    · rw [filter_dest_flatMap_of_ne
        (fun q hq m hm => hg q (List.mem_cons_of_mem o hq) m hm) hnd.1,
        List.append_nil, List.filter_eq_self]
      intro m hm
      rw [hg o (List.mem_cons_self o t) m hm]
      simp
    · have hne : a.sockFd ≠ o.sockFd := by
        intro he
        exact hnd.1 (he ▸ List.mem_map_of_mem Peer.sockFd ho')
      rw [ih (fun q hq m hm => hg q (List.mem_cons_of_mem a hq) m hm) hnd.2 ho']
      have : (g a).filter (fun m => m.dest == o.sockFd) = [] := by
        rw [List.filter_eq_nil_iff]
        intro m hm
        rw [hg a (List.mem_cons_self a t) m hm]
        simp only [beq_iff_eq]
        exact hne
      rw [this, List.nil_append]

theorem handleNewConn_success (s : Server) (env : ConnEnv)
    (hnf : 0 ≤ env.newfd) (hev : ∀ i, 0 ≤ env.eventfdRes i)
    (h0 : 0 < env.sendmsgRes 0) (h1 : 0 < env.sendmsgRes 1)
    (h2 : 0 < env.sendmsgRes 2) :
    ivshmem_server_handle_new_conn s env =
      { server := { s with
          curId := probe_cur_id s.peerList s.curId + 1,
          peerList := s.peerList ++ [⟨probe_cur_id s.peerList s.curId, env.newfd,
            s.nVectors, (List.range s.nVectors).map env.eventfdRes⟩] },
        ret := 0,
        events :=
          ([mkMsg env.newfd IVSHMEM_PROTOCOL_VERSION (-1),
            mkMsg env.newfd (probe_cur_id s.peerList s.curId) (-1),
            mkMsg env.newfd (-1) s.shmFd] ++
           (advertiseNewToOthers s.peerList ⟨probe_cur_id s.peerList s.curId, env.newfd,
              s.nVectors, (List.range s.nVectors).map env.eventfdRes⟩ ++
            advertiseOthersToNew s.peerList ⟨probe_cur_id s.peerList s.curId, env.newfd,
              s.nVectors, (List.range s.nVectors).map env.eventfdRes⟩ ++
            advertiseNewToItself ⟨probe_cur_id s.peerList s.curId, env.newfd,
              s.nVectors, (List.range s.nVectors).map env.eventfdRes⟩)).map Ev.send ++
          [Ev.insertPeer (probe_cur_id s.peerList s.curId)] } := by
  have h : ¬env.newfd < 0 := not_lt.mpr hnf
  have halloc := allocVectors_ok_of_nonneg hev s.nVectors
  have hinfo := send_initial_info_pos h0 h1 h2 s.shmFd
    (⟨probe_cur_id s.peerList s.curId, env.newfd, s.nVectors,
      (List.range s.nVectors).map env.eventfdRes⟩ : Peer)
  simp [ivshmem_server_handle_new_conn, h, halloc, hinfo]

/-- C2: under a successful handshake (accept, every eventfd and every
sendmsg succeed), the new peer's socket receives, in this exact order: the
protocol-version message with no descriptor, its own-id message with no
descriptor, the shared-memory-descriptor message, then `vector_count`
messages per already-registered peer (payload that peer's id, descriptor
that peer's vector, in registry order), then `vector_count` messages for
itself; and every already-registered peer receives exactly the
`vector_count` messages carrying the new peer's id and its vectors. -/
theorem handshake_message_sequence (s : Server) (env : ConnEnv)
    (hp : ∀ p ∈ s.peerList, p.vectorsCount = s.nVectors ∧
      p.vectors.length = s.nVectors ∧ ∀ v ∈ p.vectors, 0 ≤ v)
    (hnd : (s.peerList.map Peer.sockFd).Nodup)
    (hnew : env.newfd ∉ s.peerList.map Peer.sockFd)
    (hnf : 0 ≤ env.newfd) (hshm : 0 ≤ s.shmFd)
    (hev : ∀ i, 0 ≤ env.eventfdRes i) (hsend : ∀ k, 0 < env.sendmsgRes k) :
    (ivshmem_server_handle_new_conn s env).ret = 0 ∧
    msgsOf (ivshmem_server_handle_new_conn s env).events =
      [{ dest := env.newfd, payload := IVSHMEM_PROTOCOL_VERSION, fd := none },
       { dest := env.newfd, payload := probe_cur_id s.peerList s.curId, fd := none },
       { dest := env.newfd, payload := -1, fd := some s.shmFd }] ++
      (s.peerList.flatMap fun o => ((List.range s.nVectors).map env.eventfdRes).map
        fun v => { dest := o.sockFd, payload := probe_cur_id s.peerList s.curId,
                   fd := some v }) ++
      (s.peerList.flatMap fun o => o.vectors.map
        fun v => { dest := env.newfd, payload := o.id, fd := some v }) ++
      (((List.range s.nVectors).map env.eventfdRes).map
        fun v => { dest := env.newfd, payload := probe_cur_id s.peerList s.curId,
                   fd := some v }) ∧
    (∀ other ∈ s.peerList,
      (msgsOf (ivshmem_server_handle_new_conn s env).events).filter
          (fun m => m.dest == other.sockFd) =
        ((List.range s.nVectors).map env.eventfdRes).map
          fun v => { dest := other.sockFd, payload := probe_cur_id s.peerList s.curId,
                     fd := some v }) ∧
    (msgsOf (ivshmem_server_handle_new_conn s env).events).filter
        (fun m => m.dest == env.newfd) =
      [{ dest := env.newfd, payload := IVSHMEM_PROTOCOL_VERSION, fd := none },
       { dest := env.newfd, payload := probe_cur_id s.peerList s.curId, fd := none },
       { dest := env.newfd, payload := -1, fd := some s.shmFd }] ++
      (s.peerList.flatMap fun o => o.vectors.map
        fun v => { dest := env.newfd, payload := o.id, fd := some v }) ++
      (((List.range s.nVectors).map env.eventfdRes).map
        fun v => { dest := env.newfd, payload := probe_cur_id s.peerList s.curId,
                   fd := some v }) := by
  have key := handleNewConn_success s env hnf hev (hsend 0) (hsend 1) (hsend 2)
  have hlenNew : ((List.range s.nVectors).map env.eventfdRes).length = s.nVectors := by
    simp
  have hnnNew : ∀ v ∈ (List.range s.nVectors).map env.eventfdRes, 0 ≤ v := by
    intro v hv
    obtain ⟨i, -, rfl⟩ := List.mem_map.mp hv
    exact hev i
  have hadv1 := advertiseNewToOthers_eq s.peerList
    ⟨probe_cur_id s.peerList s.curId, env.newfd, s.nVectors,
      (List.range s.nVectors).map env.eventfdRes⟩ hlenNew hnnNew
  have hadv2 := advertiseOthersToNew_eq s.peerList
    ⟨probe_cur_id s.peerList s.curId, env.newfd, s.nVectors,
      (List.range s.nVectors).map env.eventfdRes⟩
    (fun o ho => (hp o ho).2.1) (fun o ho => (hp o ho).2.2)
  have hadv3 := advertiseNewToItself_eq
    ⟨probe_cur_id s.peerList s.curId, env.newfd, s.nVectors,
      (List.range s.nVectors).map env.eventfdRes⟩ hlenNew hnnNew
  have htrace : msgsOf (ivshmem_server_handle_new_conn s env).events =
      [{ dest := env.newfd, payload := IVSHMEM_PROTOCOL_VERSION, fd := none },
       { dest := env.newfd, payload := probe_cur_id s.peerList s.curId, fd := none },
       { dest := env.newfd, payload := -1, fd := some s.shmFd }] ++
      (s.peerList.flatMap fun o => ((List.range s.nVectors).map env.eventfdRes).map
        fun v => { dest := o.sockFd, payload := probe_cur_id s.peerList s.curId,
                   fd := some v }) ++
      (s.peerList.flatMap fun o => o.vectors.map
        fun v => { dest := env.newfd, payload := o.id, fd := some v }) ++
      (((List.range s.nVectors).map env.eventfdRes).map
        fun v => { dest := env.newfd, payload := probe_cur_id s.peerList s.curId,
                   fd := some v }) := by
    rw [key]
    dsimp only
    rw [msgsOf_append, msgsOf_sends, msgsOf_insert_tail, List.append_nil,
      hadv1, hadv2, hadv3]
    dsimp only
    simp [mkMsg, hshm, List.append_assoc]
  refine ⟨by rw [key], htrace, ?_, ?_⟩
  · intro other hother
    have hne : env.newfd ≠ other.sockFd := fun he =>
      hnew (he ▸ List.mem_map_of_mem Peer.sockFd hother)
    rw [htrace, List.filter_append, List.filter_append, List.filter_append]
    have hA : ([{ dest := env.newfd, payload := IVSHMEM_PROTOCOL_VERSION, fd := none },
        { dest := env.newfd, payload := probe_cur_id s.peerList s.curId, fd := none },
        { dest := env.newfd, payload := -1, fd := some s.shmFd }] : List Msg).filter
          (fun m => m.dest == other.sockFd) = [] := by
      simp [List.filter_cons, hne]
    have hB : (s.peerList.flatMap fun o =>
        ((List.range s.nVectors).map env.eventfdRes).map
          fun v => ({ dest := o.sockFd, payload := probe_cur_id s.peerList s.curId,
                      fd := some v } : Msg)).filter (fun m => m.dest == other.sockFd) =
        ((List.range s.nVectors).map env.eventfdRes).map
          fun v => { dest := other.sockFd, payload := probe_cur_id s.peerList s.curId,
                     fd := some v } := by
      refine filter_dest_flatMap_self ?_ hnd hother
      intro q hq m hm
      obtain ⟨v, -, rfl⟩ := List.mem_map.mp hm
      rfl
    have hC : (s.peerList.flatMap fun o => o.vectors.map
        fun v => ({ dest := env.newfd, payload := o.id, fd := some v } : Msg)).filter
          (fun m => m.dest == other.sockFd) = [] := by
      rw [List.filter_eq_nil_iff]
      intro m hm
      obtain ⟨o, -, hm2⟩ := List.mem_flatMap.mp hm
      obtain ⟨v, -, rfl⟩ := List.mem_map.mp hm2
      simp [hne]
    have hD : (((List.range s.nVectors).map env.eventfdRes).map
        fun v => ({ dest := env.newfd, payload := probe_cur_id s.peerList s.curId,
                    fd := some v } : Msg)).filter (fun m => m.dest == other.sockFd) =
        [] := by
      rw [List.filter_eq_nil_iff]
      intro m hm
      obtain ⟨v, -, rfl⟩ := List.mem_map.mp hm
      simp [hne]
    rw [hA, hB, hC, hD, List.nil_append, List.append_nil, List.append_nil]
  · rw [htrace, List.filter_append, List.filter_append, List.filter_append]
    have hA : ([{ dest := env.newfd, payload := IVSHMEM_PROTOCOL_VERSION, fd := none },
        { dest := env.newfd, payload := probe_cur_id s.peerList s.curId, fd := none },
        { dest := env.newfd, payload := -1, fd := some s.shmFd }] : List Msg).filter
          (fun m => m.dest == env.newfd) =
        [{ dest := env.newfd, payload := IVSHMEM_PROTOCOL_VERSION, fd := none },
         { dest := env.newfd, payload := probe_cur_id s.peerList s.curId, fd := none },
         { dest := env.newfd, payload := -1, fd := some s.shmFd }] := by
      simp [List.filter_cons]
    have hB : (s.peerList.flatMap fun o =>
        ((List.range s.nVectors).map env.eventfdRes).map
          fun v => ({ dest := o.sockFd, payload := probe_cur_id s.peerList s.curId,
                      fd := some v } : Msg)).filter (fun m => m.dest == env.newfd) =
        [] := by
      refine filter_dest_flatMap_of_ne ?_ hnew
      intro q hq m hm
      obtain ⟨v, -, rfl⟩ := List.mem_map.mp hm
      rfl
    have hC : (s.peerList.flatMap fun o => o.vectors.map
        fun v => ({ dest := env.newfd, payload := o.id, fd := some v } : Msg)).filter
          (fun m => m.dest == env.newfd) =
        s.peerList.flatMap fun o => o.vectors.map
          fun v => { dest := env.newfd, payload := o.id, fd := some v } := by
      rw [List.filter_eq_self]
      intro m hm
      obtain ⟨o, -, hm2⟩ := List.mem_flatMap.mp hm
      obtain ⟨v, -, rfl⟩ := List.mem_map.mp hm2
      simp
    have hD : (((List.range s.nVectors).map env.eventfdRes).map
        fun v => ({ dest := env.newfd, payload := probe_cur_id s.peerList s.curId,
                    fd := some v } : Msg)).filter (fun m => m.dest == env.newfd) =
        ((List.range s.nVectors).map env.eventfdRes).map
          fun v => { dest := env.newfd, payload := probe_cur_id s.peerList s.curId,
                     fd := some v } := by
      rw [List.filter_eq_self]
      intro m hm
      obtain ⟨v, -, rfl⟩ := List.mem_map.mp hm
      simp
    rw [hA, hB, hC, hD, List.append_nil]

/-- Witness for the handshake message sequence: a concrete server with two
registered peers and a successful third connection; peer 0 receives exactly
one message (vector_count = 1) carrying the new id and the new vector. -/
theorem handshake_message_sequence_witness :
    (ivshmem_server_handle_new_conn serverTwoPeers connEnvC).ret = 0 ∧
    (msgsOf (ivshmem_server_handle_new_conn serverTwoPeers connEnvC).events).filter
        (fun m => m.dest == peerX.sockFd) =
      ((List.range serverTwoPeers.nVectors).map connEnvC.eventfdRes).map
        fun v => { dest := peerX.sockFd,
                   payload := probe_cur_id serverTwoPeers.peerList serverTwoPeers.curId,
                   fd := some v } := by
  have h := handshake_message_sequence serverTwoPeers connEnvC (by decide) (by decide)
    (by decide) (by decide) (by decide) (fun i => show (0 : Int) ≤ 22 by decide)
    (fun k => show (0 : Int) < 8 by decide)
  exact ⟨h.1, h.2.2.1 peerX (by decide)⟩

theorem handleNewConn_sendmsg_only_first3 (s : Server) (c1 c2 : ConnEnv)
    (hfd : c2.newfd = c1.newfd) (hev : c2.eventfdRes = c1.eventfdRes)
    (hs : ∀ k, k < 3 → c2.sendmsgRes k = c1.sendmsgRes k) :
    (ivshmem_server_handle_new_conn s c2).ret =
      (ivshmem_server_handle_new_conn s c1).ret ∧
    (ivshmem_server_handle_new_conn s c2).server =
      (ivshmem_server_handle_new_conn s c1).server := by
  have hinfo : ∀ shmFd p, ivshmem_server_send_initial_info c2.sendmsgRes shmFd p =
      ivshmem_server_send_initial_info c1.sendmsgRes shmFd p := by
    intro shmFd p
    unfold ivshmem_server_send_initial_info
    rw [hs 0 (by omega), hs 1 (by omega), hs 2 (by omega)]
  unfold ivshmem_server_handle_new_conn
  rw [hfd, hev]
  simp [hinfo]

/-- C8: one dispatch cycle reports failure exactly when the listening socket
was ready and handling the new connection failed with `errno` not `EINTR`
(so interrupted accepts are swallowed, and freeing ready peers in the sweep
never fails the cycle); and the outcome of the new connection -- its return
code and the resulting server state -- does not depend on the results of the
broadcast `sendmsg` calls, only on the first three sends (those to the new
peer itself). -/
theorem dispatch_cycle_failure (s : Server) (e : FdsEnv) (c2 : ConnEnv)
    (hfd : c2.newfd = e.conn.newfd) (hev : c2.eventfdRes = e.conn.eventfdRes)
    (hs : ∀ k, k < 3 → c2.sendmsgRes k = e.conn.sendmsgRes k) :
    ((ivshmem_server_handle_fds s e).2.1 = -1 ↔
      (fdReady e s.sockFd = true ∧
        (ivshmem_server_handle_new_conn s e.conn).ret < 0 ∧
        e.errnoEintr = false)) ∧
    (ivshmem_server_handle_new_conn s c2).ret =
      (ivshmem_server_handle_new_conn s e.conn).ret ∧
    (ivshmem_server_handle_new_conn s c2).server =
      (ivshmem_server_handle_new_conn s e.conn).server := by
  refine ⟨?_, handleNewConn_sendmsg_only_first3 s e.conn c2 hfd hev hs⟩
  by_cases hr : fdReady e s.sockFd
  · by_cases h1 : (ivshmem_server_handle_new_conn s e.conn).ret < 0
    · by_cases h2 : e.errnoEintr
      · simp [ivshmem_server_handle_fds, hr, h1, h2]
      · simp [ivshmem_server_handle_fds, hr, h1, h2]
    · simp [ivshmem_server_handle_fds, hr, h1]
  · simp [ivshmem_server_handle_fds, hr]

/-- Witness for the dispatch-cycle failure condition at a concrete cycle:
the connection succeeds, so the cycle returns 0, and failing every
broadcast send does not change the connection's return code. -/
theorem dispatch_cycle_failure_witness :
    ((ivshmem_server_handle_fds serverTwoPeers fdsEnvW).2.1 = -1 ↔
      (fdReady fdsEnvW serverTwoPeers.sockFd = true ∧
        (ivshmem_server_handle_new_conn serverTwoPeers fdsEnvW.conn).ret < 0 ∧
        fdsEnvW.errnoEintr = false)) ∧
    (ivshmem_server_handle_new_conn serverTwoPeers connEnvC2).ret =
      (ivshmem_server_handle_new_conn serverTwoPeers fdsEnvW.conn).ret := by
  have h := dispatch_cycle_failure serverTwoPeers fdsEnvW connEnvC2 rfl rfl
    (fun k hk => by show (if k < 3 then (8 : Int) else -5) = 8; rw [if_pos hk])
  exact ⟨h.1, h.2.1⟩

theorem smearStep_testBit (x k i : Nat) :
    (smearStep x k).testBit i = (x.testBit i || x.testBit (i + k)) := by
  simp [smearStep, Nat.testBit_or, Nat.testBit_shiftRight, Nat.add_comm k i]

theorem smearIter_testBit (y : Nat) :
    ∀ m i, (smearIter y m).testBit i = true ↔
      ∃ k, k < 2 ^ m ∧ y.testBit (i + k) = true := by
  intro m
  induction m with
  | zero =>
    intro i
    simp only [smearIter, Nat.pow_zero]
    constructor
    · intro h
      exact ⟨0, by omega, by simpa using h⟩
    · rintro ⟨k, hk, hb⟩
      have hk0 : k = 0 := by omega
      subst hk0
      simpa using hb
  | succ m ih =>
    intro i
    have hpow : 2 ^ (m + 1) = 2 ^ m * 2 := Nat.pow_succ 2 m
    rw [smearIter, smearStep_testBit]
    constructor
    · intro h
      rcases (Bool.or_eq_true _ _).mp h with h | h
      · obtain ⟨k, hk, hb⟩ := (ih i).mp h
        exact ⟨k, by omega, hb⟩
      · obtain ⟨k, hk, hb⟩ := (ih (i + 2 ^ m)).mp h
        refine ⟨2 ^ m + k, by omega, ?_⟩
        have harr : i + (2 ^ m + k) = i + 2 ^ m + k := by omega
        rw [harr]
        exact hb
    · rintro ⟨k, hk, hb⟩
      rw [Bool.or_eq_true]
      by_cases hk2 : k < 2 ^ m
      · exact Or.inl ((ih i).mpr ⟨k, hk2, hb⟩)
      · refine Or.inr ((ih (i + 2 ^ m)).mpr ⟨k - 2 ^ m, by omega, ?_⟩)
        have harr : i + 2 ^ m + (k - 2 ^ m) = i + k := by omega
        rw [harr]
        exact hb

theorem testBit_size_sub_one {y : Nat} (hy : y ≠ 0) :
    y.testBit (y.size - 1) = true := by
  have h1 : 0 < y.size := Nat.size_pos.mpr (Nat.pos_of_ne_zero hy)
  have h2 : 2 ^ (y.size - 1) ≤ y := Nat.lt_size.mp (by omega)
  have h3 : y < 2 ^ y.size := Nat.lt_size_self y
  have h4 : y < 2 ^ (y.size - 1) * 2 := by
    have hs : y.size - 1 + 1 = y.size := by omega
    calc y < 2 ^ y.size := h3
      _ = 2 ^ (y.size - 1 + 1) := by rw [hs]
      _ = 2 ^ (y.size - 1) * 2 := Nat.pow_succ 2 (y.size - 1)
  have hdiv : y / 2 ^ (y.size - 1) = 1 := by
    have hlow : 1 ≤ y / 2 ^ (y.size - 1) :=
      (Nat.one_le_div_iff (Nat.two_pow_pos _)).mpr h2
    have hhigh : y / 2 ^ (y.size - 1) < 2 :=
      (Nat.div_lt_iff_lt_mul (Nat.two_pow_pos _)).mpr (by omega)
    omega
  rw [Nat.testBit_to_div_mod, hdiv]
  rfl

theorem testBit_lt_size {y i : Nat} (h : y.testBit i = true) : i < y.size :=
  Nat.lt_size.mpr (Nat.testBit_implies_ge h)

theorem smearIter5_eq {y : Nat} (hy : y < 2 ^ 31) :
    smearIter y 5 = 2 ^ y.size - 1 := by
  apply Nat.eq_of_testBit_eq
  intro i
  rw [Nat.testBit_two_pow_sub_one]
  by_cases hi : i < y.size
  · rw [decide_eq_true hi]
    apply (smearIter_testBit y 5 i).mpr
    have hy0 : y ≠ 0 := by
      intro h
      subst h
      rw [Nat.size_zero] at hi
      omega
    have hsz : y.size ≤ 31 := Nat.size_le.mpr hy
    have h32 : (2 : Nat) ^ 5 = 32 := by norm_num
    refine ⟨y.size - 1 - i, by omega, ?_⟩
    have harr : i + (y.size - 1 - i) = y.size - 1 := by omega
    rw [harr]
    exact testBit_size_sub_one hy0
  · rw [decide_eq_false hi]
    cases hb : (smearIter y 5).testBit i with
    | false => rfl
    | true =>
      obtain ⟨k, -, hk⟩ := (smearIter_testBit y 5 i).mp hb
      have := testBit_lt_size hk
      omega

theorem alignTo2_eq_pow {n : Nat} (h1 : 1 ≤ n) (h2 : n ≤ 2 ^ 31) :
    alignTo2 n = 2 ^ (n - 1).size := by
  have h31 : (2 : Nat) ^ 31 = 2147483648 := by norm_num
  have h32 : (2 : Nat) ^ 32 = 4294967296 := by norm_num
  have hx0 : n % 2 ^ 32 = n := Nat.mod_eq_of_lt (by omega)
  have hy : (n % 2 ^ 32 + (2 ^ 32 - 1)) % 2 ^ 32 = n - 1 := by
    rw [hx0]
    have harr : n + (2 ^ 32 - 1) = n - 1 + 2 ^ 32 := by omega
    rw [harr, Nat.add_mod_right]
    exact Nat.mod_eq_of_lt (by omega)
  have hiter : alignTo2 n = (smearIter (n - 1) 5 + 1) % 2 ^ 32 := by
    unfold alignTo2
    rw [hy]
    rfl
  rw [hiter, smearIter5_eq (show n - 1 < 2 ^ 31 by omega)]
  have hsz : (n - 1).size ≤ 31 := Nat.size_le.mpr (by omega)
  have hpow : (2 : Nat) ^ (n - 1).size ≤ 2 ^ 31 := Nat.pow_le_pow_right (by omega) hsz
  have hcancel : 2 ^ (n - 1).size - 1 + 1 = 2 ^ (n - 1).size := by
    have := Nat.one_le_two_pow (n := (n - 1).size)
    omega
  rw [hcancel]
  exact Nat.mod_eq_of_lt (by omega)

theorem ftruncLoop_some {accept : Nat → Bool} :
    ∀ (fuel p s : Nat), ftruncLoop accept p fuel = some s →
      accept s = true ∧ s ≤ IVSHMEM_SERVER_MAX_HUGEPAGE_SIZE ∧
      ∃ j, s = p * 2 ^ j ∧ ∀ i, i < j → accept (p * 2 ^ i) = false := by
  intro fuel
  induction fuel with
  | zero =>
    intro p s h
    simp [ftruncLoop] at h
  | succ f ih =>
    intro p s h
    rw [ftruncLoop] at h
    split at h
    · rename_i hp
      split at h
      · rename_i hacc
        obtain rfl : p = s := by simpa using h
        exact ⟨hacc, hp, 0, by simp, fun i hi => absurd hi (by omega)⟩
      · rename_i hnacc
        have hmax : p ≤ 1024 * 1024 * 1024 := hp
        have h32 : (2 : Nat) ^ 32 = 4294967296 := by norm_num
        have hmod : p * 2 % 2 ^ 32 = p * 2 := Nat.mod_eq_of_lt (by omega)
        rw [hmod] at h
        obtain ⟨ha, hle, j, rfl, hmin⟩ := ih (p * 2) s h
        refine ⟨ha, hle, j + 1, by ring, ?_⟩
        intro i hi
        cases i with
        | zero =>
          simpa using hnacc
        | succ i =>
          have harr : p * 2 ^ (i + 1) = p * 2 * 2 ^ i := by ring
          rw [harr]
          exact hmin i (by omega)
    · exact absurd h (by simp)

theorem ftruncLoop_none {accept : Nat → Bool} :
    ∀ (fuel p : Nat), IVSHMEM_SERVER_MAX_HUGEPAGE_SIZE < p * 2 ^ fuel →
      ftruncLoop accept p fuel = none →
      ∀ j, p * 2 ^ j ≤ IVSHMEM_SERVER_MAX_HUGEPAGE_SIZE → accept (p * 2 ^ j) = false := by
  intro fuel
  induction fuel with
  | zero =>
    intro p hbig hnone j hj
    have hpj : p ≤ p * 2 ^ j := Nat.le_mul_of_pos_right p (Nat.two_pow_pos j)
    rw [Nat.pow_zero, Nat.mul_one] at hbig
    omega
  | succ f ih =>
    intro p hbig hnone j hj
    rw [ftruncLoop] at hnone
    split at hnone
    · rename_i hp
      split at hnone
      · exact absurd hnone (by simp)
      · rename_i hnacc
        have hmax : p ≤ 1024 * 1024 * 1024 := hp
        have h32 : (2 : Nat) ^ 32 = 4294967296 := by norm_num
        have hmod : p * 2 % 2 ^ 32 = p * 2 := Nat.mod_eq_of_lt (by omega)
        rw [hmod] at hnone
        cases j with
        | zero =>
          simpa using hnacc
        | succ i =>
          have harr : p * 2 ^ (i + 1) = p * 2 * 2 ^ i := by ring
          rw [harr]
          refine ih (p * 2) ?_ hnone i (by rw [← harr]; exact hj)
          have harr2 : p * 2 * 2 ^ f = p * 2 ^ (f + 1) := by ring
          rw [harr2]
          exact hbig
    · rename_i hp
      have hpj : p ≤ p * 2 ^ j := Nat.le_mul_of_pos_right p (Nat.two_pow_pos j)
      omega

/-- C6 amended: for every requested size in `[1, 2^31]` (so that the 32-bit
computation does not wrap), the sizing operation first rounds the size up to
the smallest power of two greater than or equal to it, then attempts that
size and each successive doubling, succeeding at the first size the storage
accepts and failing once the candidate exceeds 1 GiB. -/
theorem ftruncate_rounds_and_doubles (accept : Nat → Bool) (n : Nat)
    (h1 : 1 ≤ n) (h2 : n ≤ 2 ^ 31) :
    (alignTo2 n = 2 ^ (n - 1).size ∧ n ≤ alignTo2 n ∧
      ∀ k, n ≤ 2 ^ k → alignTo2 n ≤ 2 ^ k) ∧
    (∀ s, ivshmem_server_ftruncate accept n = some s →
      accept s = true ∧ s ≤ IVSHMEM_SERVER_MAX_HUGEPAGE_SIZE ∧
      ∃ j, s = alignTo2 n * 2 ^ j ∧ ∀ i, i < j → accept (alignTo2 n * 2 ^ i) = false) ∧
    (ivshmem_server_ftruncate accept n = none →
      ∀ j, alignTo2 n * 2 ^ j ≤ IVSHMEM_SERVER_MAX_HUGEPAGE_SIZE →
        accept (alignTo2 n * 2 ^ j) = false) := by
  have halign := alignTo2_eq_pow h1 h2
  refine ⟨⟨halign, ?_, ?_⟩, ?_, ?_⟩
  · rw [halign]
    have := Nat.lt_size_self (n - 1)
    omega
  · intro k hk
    rw [halign]
    exact Nat.pow_le_pow_right (by omega) (Nat.size_le.mpr (by omega))
  · intro s hs
    exact ftruncLoop_some 33 _ s hs
  · intro hn j
    refine ftruncLoop_none 33 _ ?_ hn j
    have hone : 1 ≤ alignTo2 n := by
      rw [halign]
      exact Nat.one_le_two_pow
    have h33 : (2 : Nat) ^ 33 = 8589934592 := by norm_num
    have hle : 2 ^ 33 ≤ alignTo2 n * 2 ^ 33 :=
      Nat.le_mul_of_pos_left _ (by omega)
    show 1024 * 1024 * 1024 < alignTo2 n * 2 ^ 33
    omega

/-- C6 counterexample: for requested size `2^31 + 1` the smallest power of
two greater than or equal to it is `2^32`, above the 1 GiB ceiling, so the
claimed behaviour is failure regardless of the storage; but the 32-bit
alignment wraps to 0 and, with a storage that accepts every size, the code
succeeds immediately -- at size 0, smaller than the request. -/
theorem ftruncate_wrap_refutes_rounding :
    alignTo2 (2 ^ 31 + 1) = 0 ∧ (0 : Nat) < 2 ^ 31 + 1 ∧
    ivshmem_server_ftruncate (fun _ => true) (2 ^ 31 + 1) = some 0 := by
  refine ⟨by decide, by norm_num, by decide⟩

/-- Witness for the sizing theorem at request 100 with a storage accepting
only sizes of at least 256: the rounded size is `128 = 2^(size 99)` and it
is at least the request. -/
theorem ftruncate_rounds_witness :
    (100 : Nat) ≤ alignTo2 100 ∧ alignTo2 100 = 2 ^ (100 - 1).size := by
  have h := ftruncate_rounds_and_doubles (fun sz => decide (256 ≤ sz)) 100
    (by norm_num) (by norm_num)
  exact ⟨h.1.2.1, h.1.1⟩
